import Mathlib

/-!
Verification of the imperial core: the lazy, dependency-tracked cache graph
with invalidation propagation (`imperial/linkmap.py`), the key-resolution
engine (`imperial/core/key.py`, `imperial/core/dynamic.py`), the
serialization codec with resumable parsing (`imperial/core/serializable.py`,
`imperial/core/number.py`) and the windowed byte buffer (`imperial/util.py`).

Each Python function relevant to a claim is shallowly embedded as an
executable Lean definition; stateful methods become explicit state-passing
functions.  Machine integers are modelled as `Nat`/`Int` (Python integers are
unbounded).  Weak references (`WeakSet`, `WeakValueDictionary`) are modelled
as plain sets/association lists: no scenario below involves garbage
collection.
-/

namespace Imperial

/-! ## The invalidation graph: `BaseLinkNode.invalidate` (linkmap.py 141-153)

A dependency graph over `n` cache nodes.  `links_in` and `references_in`
are the two sets of direct dependents a node propagates invalidation to;
`rigid` nodes never invalidate.  Python recurses with an `id`-keyed `memo`
set; the recursion depth is bounded by the number of nodes, which the
embedding makes explicit with a fuel argument: `invRun` with fuel `n + 1`
is proved to never run out (the termination half of the claim). -/

structure InvGraph (n : Nat) where
  rigid : Fin n → Bool
  links_in : Fin n → List (Fin n)
  references_in : Fin n → List (Fin n)

/-- The direct dependents a node fans invalidation out to, in the order the
Python code iterates them: `links_in` first, then `references_in`. -/
def InvGraph.succs {n : Nat} (g : InvGraph n) (i : Fin n) : List (Fin n) :=
  g.links_in i ++ g.references_in i

/-- Mutable state threaded through one `invalidate` call: the per-node
`valid` flags, the per-call `memo` set of visited node ids, and an
instrumentation counter `marks j` recording how many times node `j` was
marked invalid (`self.valid = False`) during the call. -/
structure InvSt (n : Nat) where
  valid : Fin n → Bool
  memo : Finset (Fin n)
  marks : Fin n → Nat

/-- Runs `f` on each list element in order, threading the state; `none`
aborts.  This is the `for x in self.links_in: x.invalidate(memo)` loop shape
shared by `invalidate` and the `value` setter. -/
def stepList {n : Nat} (f : Fin n → InvSt n → Option (InvSt n)) :
    List (Fin n) → InvSt n → Option (InvSt n)
  | [], st => some st
  | x :: xs, st =>
    match f x st with
    | none => none
    | some st1 => stepList f xs st1

/-- `BaseLinkNode.invalidate(memo)`: if the node is not rigid and not yet in
the per-call memo, add it to the memo, mark it invalid, then recursively
invalidate every node in `links_in` and `references_in`.  `fuel` bounds the
recursion depth (Python's implicit call stack); `none` means the fuel ran
out. -/
def invRun {n : Nat} (g : InvGraph n) : Nat → Fin n → InvSt n → Option (InvSt n)
  | 0, _, _ => none
  | fuel + 1, i, st =>
    if g.rigid i then some st
    else if i ∈ st.memo then some st
    else
      stepList (invRun g fuel) (g.succs i)
        { valid := Function.update st.valid i false,
          memo := insert i st.memo,
          marks := Function.update st.marks i (st.marks i + 1) }

/-- One top-level `invalidate()` call on node `i` (no memo passed in, so it
starts empty), with fresh instrumentation counters and fuel `n + 1`. -/
def invalidate {n : Nat} (g : InvGraph n) (i : Fin n) (v0 : Fin n → Bool) :
    Option (InvSt n) :=
  invRun g (n + 1) i ⟨v0, ∅, fun _ => 0⟩

/-- One step of invalidation propagation: a non-rigid node passes
invalidation to each of its direct dependents. -/
def NRStep {n : Nat} (g : InvGraph n) (a b : Fin n) : Prop :=
  g.rigid a = false ∧ b ∈ g.succs a

/-- Reachability along invalidation propagation: the reflexive-transitive
closure of `NRStep`. -/
def Reach {n : Nat} (g : InvGraph n) : Fin n → Fin n → Prop :=
  Relation.ReflTransGen (NRStep g)

/-! ### Invariants of one invalidation call -/

/-- Relation between the state before and after a (partial) invalidation
run: the memo only grows; a node newly added to the memo is non-rigid, was
marked invalid exactly once more, and has `valid = false`; every other node
is untouched. -/
def InvPost {n : Nat} (g : InvGraph n) (st st' : InvSt n) : Prop :=
  st.memo ⊆ st'.memo ∧
  ∀ j,
    (j ∈ st'.memo ∧ j ∉ st.memo →
      st'.valid j = false ∧ st'.marks j = st.marks j + 1 ∧ g.rigid j = false) ∧
    (¬(j ∈ st'.memo ∧ j ∉ st.memo) →
      st'.valid j = st.valid j ∧ st'.marks j = st.marks j)

theorem invPost_refl {n : Nat} (g : InvGraph n) (st : InvSt n) : InvPost g st st := by
  refine ⟨Finset.Subset.refl _, fun j => ⟨fun h => absurd h.1 h.2, fun _ => ⟨rfl, rfl⟩⟩⟩

theorem invPost_trans {n : Nat} {g : InvGraph n} {s1 s2 s3 : InvSt n}
    (h12 : InvPost g s1 s2) (h23 : InvPost g s2 s3) : InvPost g s1 s3 := by
  obtain ⟨hm12, h12⟩ := h12
  obtain ⟨hm23, h23⟩ := h23
  refine ⟨hm12.trans hm23, fun j => ⟨?_, ?_⟩⟩
  · rintro ⟨h3, h1⟩
    by_cases h2 : j ∈ s2.memo
    · have hnew := (h12 j).1 ⟨h2, h1⟩
      have hold := (h23 j).2 (by simp [h2])
      exact ⟨by rw [hold.1, hnew.1], by rw [hold.2, hnew.2.1], hnew.2.2⟩
    · have hold := (h12 j).2 (by simp [h2])
      have hnew := (h23 j).1 ⟨h3, h2⟩
      exact ⟨hnew.1, by rw [hnew.2.1, hold.2], hnew.2.2⟩
  · intro hno
    have h3 : j ∉ s3.memo ∨ j ∈ s1.memo := by tauto
    have h2 : j ∉ s2.memo ∨ j ∈ s1.memo := by
      rcases h3 with h | h
      · exact Or.inl fun hc => h (hm23 hc)
      · exact Or.inr h
    have e12 := (h12 j).2 (by rcases h2 with h | h <;> tauto)
    have e23 := (h23 j).2 (by
      rcases h3 with h | h
      · tauto
      · exact fun hc => hc.2 (hm12 h))
    exact ⟨e23.1.trans e12.1, e23.2.trans e12.2⟩

theorem stepList_post {n : Nat} {g : InvGraph n}
    {f : Fin n → InvSt n → Option (InvSt n)}
    (hf : ∀ x st st', f x st = some st' → InvPost g st st') :
    ∀ {xs : List (Fin n)} {st st' : InvSt n},
      stepList f xs st = some st' → InvPost g st st'
  | [], st, st', h => by
      simp only [stepList] at h
      obtain rfl := Option.some_inj.mp h
      exact invPost_refl g st
  | x :: xs, st, st', h => by
      simp only [stepList] at h
      cases hx : f x st with
      | none => rw [hx] at h; exact absurd h (by simp)
      | some st1 =>
          rw [hx] at h
          exact invPost_trans (hf x st st1 hx) (stepList_post hf h)

theorem invRun_post {n : Nat} (g : InvGraph n) :
    ∀ (fuel : Nat) (i : Fin n) (st st' : InvSt n),
      invRun g fuel i st = some st' → InvPost g st st' := by
  intro fuel
  induction fuel with
  | zero => intro i st st' h; exact absurd h (by simp [invRun])
  | succ fuel ih =>
      intro i st st' h
      rw [invRun] at h
      by_cases hr : g.rigid i
      · rw [if_pos hr] at h
        obtain rfl := Option.some_inj.mp h
        exact invPost_refl g st
      · rw [if_neg hr] at h
        by_cases hm : i ∈ st.memo
        · rw [if_pos hm] at h
          obtain rfl := Option.some_inj.mp h
          exact invPost_refl g st
        · rw [if_neg hm] at h
          refine invPost_trans ?_ (stepList_post (fun x s s' hx => ih x s s' hx) h)
          refine ⟨Finset.subset_insert _ _, fun j => ⟨?_, ?_⟩⟩
          · rintro ⟨hj, hj'⟩
            have hji : j = i := by
              rcases Finset.mem_insert.mp hj with h | h
              · exact h
              · exact absurd h hj'
            subst hji
            simp only [Bool.not_eq_true] at hr
            simp [Function.update_same, hr]
          · intro hno
            have hji : j ≠ i := by
              rintro rfl
              exact hno ⟨Finset.mem_insert_self _ _, hm⟩
            simp [Function.update_noteq hji]

theorem invRun_memo_mono {n : Nat} {g : InvGraph n} {fuel : Nat} {i : Fin n}
    {st st' : InvSt n} (h : invRun g fuel i st = some st') : st.memo ⊆ st'.memo :=
  (invRun_post g fuel i st st' h).1

theorem stepList_some {n : Nat} {g : InvGraph n} {fuel : Nat}
    (hf : ∀ x st, n - st.memo.card < fuel → ∃ st', invRun g fuel x st = some st') :
    ∀ (xs : List (Fin n)) (st : InvSt n), n - st.memo.card < fuel →
      ∃ st', stepList (invRun g fuel) xs st = some st'
  | [], st, _ => ⟨st, rfl⟩
  | x :: xs, st, hc => by
      obtain ⟨st1, hx⟩ := hf x st hc
      have hmono := invRun_memo_mono hx
      have hc1 : n - st1.memo.card < fuel :=
        lt_of_le_of_lt (Nat.sub_le_sub_left (Finset.card_le_card hmono) n) hc
      obtain ⟨st', hrest⟩ := stepList_some hf xs st1 hc1
      exact ⟨st', by simp only [stepList, hx]; exact hrest⟩

theorem invRun_some {n : Nat} (g : InvGraph n) :
    ∀ (fuel : Nat) (i : Fin n) (st : InvSt n), n - st.memo.card < fuel →
      ∃ st', invRun g fuel i st = some st' := by
  intro fuel
  induction fuel with
  | zero => intro i st h; exact absurd h (Nat.not_lt_zero _)
  | succ fuel ih =>
      intro i st hc
      rw [invRun]
      by_cases hr : g.rigid i
      · exact ⟨st, by rw [if_pos hr]⟩
      · rw [if_neg hr]
        by_cases hm : i ∈ st.memo
        · exact ⟨st, by rw [if_pos hm]⟩
        · rw [if_neg hm]
          have hcard : st.memo.card < n := by
            have h1 : (insert i st.memo).card ≤ n := by
              simpa using Finset.card_le_univ (insert i st.memo)
            have h2 : (insert i st.memo).card = st.memo.card + 1 :=
              Finset.card_insert_of_not_mem hm
            omega
          refine stepList_some (fun x s hs => ih x s hs) (g.succs i) _ ?_
          simp only [Finset.card_insert_of_not_mem hm]
          omega

theorem invRun_presence {n : Nat} {g : InvGraph n} {fuel : Nat} {i : Fin n}
    {st st' : InvSt n} (h : invRun g fuel i st = some st')
    (hr : g.rigid i = false) : i ∈ st'.memo := by
  cases fuel with
  | zero => exact absurd h (by simp [invRun])
  | succ fuel =>
      rw [invRun, hr] at h
      simp only [Bool.false_eq_true, if_false] at h
      by_cases hm : i ∈ st.memo
      · rw [if_pos hm] at h
        obtain rfl := Option.some_inj.mp h
        exact hm
      · rw [if_neg hm] at h
        exact (stepList_post (fun x s s' hx => invRun_post g fuel x s s' hx) h).1
          (Finset.mem_insert_self i st.memo)

theorem stepList_reach {n : Nat} {g : InvGraph n} {fuel : Nat}
    (hf : ∀ x st st', invRun g fuel x st = some st' →
      ∀ j ∈ st'.memo, j ∈ st.memo ∨ Reach g x j) :
    ∀ {xs : List (Fin n)} {st st' : InvSt n},
      stepList (invRun g fuel) xs st = some st' →
      ∀ j ∈ st'.memo, j ∈ st.memo ∨ ∃ x ∈ xs, Reach g x j
  | [], st, st', h => by
      simp only [stepList] at h
      obtain rfl := Option.some_inj.mp h
      exact fun j hj => Or.inl hj
  | x :: xs, st, st', h => by
      simp only [stepList] at h
      cases hx : invRun g fuel x st with
      | none => rw [hx] at h; exact absurd h (by simp)
      | some st1 =>
          rw [hx] at h
          intro j hj
          rcases stepList_reach hf h j hj with h1 | ⟨y, hy, hr⟩
          · rcases hf x st st1 hx j h1 with h2 | h2
            · exact Or.inl h2
            · exact Or.inr ⟨x, List.mem_cons_self x xs, h2⟩
          · exact Or.inr ⟨y, List.mem_cons_of_mem x hy, hr⟩

theorem invRun_reach {n : Nat} (g : InvGraph n) :
    ∀ (fuel : Nat) (i : Fin n) (st st' : InvSt n),
      invRun g fuel i st = some st' →
      ∀ j ∈ st'.memo, j ∈ st.memo ∨ Reach g i j := by
  intro fuel
  induction fuel with
  | zero => intro i st st' h; exact absurd h (by simp [invRun])
  | succ fuel ih =>
      intro i st st' h
      rw [invRun] at h
      by_cases hr : g.rigid i
      · rw [if_pos hr] at h
        obtain rfl := Option.some_inj.mp h
        exact fun j hj => Or.inl hj
      · rw [if_neg hr] at h
        by_cases hm : i ∈ st.memo
        · rw [if_pos hm] at h
          obtain rfl := Option.some_inj.mp h
          exact fun j hj => Or.inl hj
        · rw [if_neg hm] at h
          intro j hj
          simp only [Bool.not_eq_true] at hr
          rcases stepList_reach (fun x s s' hx => ih x s s' hx) h j hj with h1 | ⟨x, hx, hreach⟩
          · rcases Finset.mem_insert.mp h1 with rfl | h2
            · exact Or.inr Relation.ReflTransGen.refl
            · exact Or.inl h2
          · exact Or.inr (Relation.ReflTransGen.head ⟨hr, hx⟩ hreach)

/-- A memo set is closed at `j` when every non-rigid direct dependent of `j`
is also in it. -/
def MemoClosedAt {n : Nat} (g : InvGraph n) (M : Finset (Fin n)) (j : Fin n) : Prop :=
  ∀ b ∈ g.succs j, g.rigid b = false → b ∈ M

theorem stepList_closed {n : Nat} {g : InvGraph n} {fuel : Nat}
    (hf : ∀ x st st', invRun g fuel x st = some st' →
      ∀ j ∈ st'.memo, j ∉ st.memo → MemoClosedAt g st'.memo j) :
    ∀ {xs : List (Fin n)} {st st' : InvSt n},
      stepList (invRun g fuel) xs st = some st' →
      (∀ j ∈ st'.memo, j ∉ st.memo → MemoClosedAt g st'.memo j) ∧
      (∀ x ∈ xs, g.rigid x = false → x ∈ st'.memo)
  | [], st, st', h => by
      simp only [stepList] at h
      obtain rfl := Option.some_inj.mp h
      exact ⟨fun j hj hj' => absurd hj hj', by simp⟩
  | x :: xs, st, st', h => by
      simp only [stepList] at h
      cases hx : invRun g fuel x st with
      | none => rw [hx] at h; exact absurd h (by simp)
      | some st1 =>
          rw [hx] at h
          have hmono1 : st.memo ⊆ st1.memo := invRun_memo_mono hx
          have hmono2 : st1.memo ⊆ st'.memo :=
            (stepList_post (fun a s s' ha => invRun_post g fuel a s s' ha) h).1
          obtain ⟨ihc, ihp⟩ := stepList_closed hf h
          refine ⟨?_, ?_⟩
          · intro j hj hj'
            by_cases h1 : j ∈ st1.memo
            · intro b hb hrb
              exact hmono2 (hf x st st1 hx j h1 hj' b hb hrb)
            · exact ihc j hj h1
          · intro y hy hry
            rcases List.mem_cons.mp hy with rfl | hy'
            · exact hmono2 (invRun_presence hx hry)
            · exact ihp y hy' hry

theorem invRun_closed {n : Nat} (g : InvGraph n) :
    ∀ (fuel : Nat) (i : Fin n) (st st' : InvSt n),
      invRun g fuel i st = some st' →
      ∀ j ∈ st'.memo, j ∉ st.memo → MemoClosedAt g st'.memo j := by
  intro fuel
  induction fuel with
  | zero => intro i st st' h; exact absurd h (by simp [invRun])
  | succ fuel ih =>
      intro i st st' h
      rw [invRun] at h
      by_cases hr : g.rigid i
      · rw [if_pos hr] at h
        obtain rfl := Option.some_inj.mp h
        exact fun j hj hj' => absurd hj hj'
      · rw [if_neg hr] at h
        by_cases hm : i ∈ st.memo
        · rw [if_pos hm] at h
          obtain rfl := Option.some_inj.mp h
          exact fun j hj hj' => absurd hj hj'
        · rw [if_neg hm] at h
          obtain ⟨hc, hp⟩ := stepList_closed (fun x s s' hx => ih x s s' hx) h
          intro j hj hj'
          by_cases hji : j = i
          · subst hji
            exact fun b hb hrb => hp b hb hrb
          · exact hc j hj (by
              simp only [Finset.mem_insert]
              tauto)

/-- C1: for every dependency graph of cache nodes, cycles included, a
top-level `invalidate` call on any node `i` terminates (fuel `n + 1`, one
unit per stack frame, never runs out: the result is `some`), and in that one
call every node that is non-rigid and reachable from `i` along invalidation
propagation is marked invalid exactly once (`marks j = 1`, `valid j`
cleared), while every other node is not marked at all and keeps its
validity — the per-call `memo` set prevents re-marking through cycles. -/
theorem c1_invalidate_terminates_marks_once {n : Nat} (g : InvGraph n)
    (i : Fin n) (v0 : Fin n → Bool) :
    ∃ st', invalidate g i v0 = some st' ∧
      (∀ j, g.rigid j = false → Reach g i j → st'.marks j = 1 ∧ st'.valid j = false) ∧
      (∀ j, ¬(g.rigid j = false ∧ Reach g i j) → st'.marks j = 0 ∧ st'.valid j = v0 j) := by
  obtain ⟨st', h⟩ := invRun_some g (n + 1) i ⟨v0, ∅, fun _ => 0⟩ (by simp)
  have hpost := invRun_post g (n + 1) i _ st' h
  have hmem : ∀ j, j ∈ st'.memo ↔ (g.rigid j = false ∧ Reach g i j) := by
    intro j
    constructor
    · intro hj
      have hnew := (hpost.2 j).1 ⟨hj, Finset.not_mem_empty j⟩
      rcases invRun_reach g (n + 1) i _ st' h j hj with h0 | hr
      · exact absurd h0 (Finset.not_mem_empty j)
      · exact ⟨hnew.2.2, hr⟩
    · rintro ⟨hrj, hreach⟩
      induction hreach with
      | refl => exact invRun_presence h hrj
      | tail hab hbc ih =>
          obtain ⟨hrb, hsucc⟩ := hbc
          have hb := ih hrb
          exact invRun_closed g (n + 1) i _ st' h _ hb (Finset.not_mem_empty _) _ hsucc hrj
  refine ⟨st', h, ?_, ?_⟩
  · intro j hrj hreach
    have hj : j ∈ st'.memo := (hmem j).mpr ⟨hrj, hreach⟩
    have hnew := (hpost.2 j).1 ⟨hj, Finset.not_mem_empty j⟩
    exact ⟨hnew.2.1, hnew.1⟩
  · intro j hno
    have hj : j ∉ st'.memo := fun hc => hno ((hmem j).mp hc)
    have hold := (hpost.2 j).2 (fun hc => hj hc.1)
    exact ⟨hold.2, hold.1⟩

/-- A concrete three-node cyclic graph used to witness the invalidation
theorems: node 0 and node 1 depend on each other (a cycle), node 2 is a
rigid dependent of node 1. -/
def cycleGraph : InvGraph 3 where
  rigid := fun j => j = (2 : Fin 3)
  links_in := fun j => if j = 0 then [1] else if j = 1 then [0, 2] else []
  references_in := fun _ => []

/-- Witness for C1 on `cycleGraph`: the call on node 0 terminates and marks
the two non-rigid nodes of the cycle exactly once each, leaving the rigid
node untouched. -/
theorem c1_invalidate_terminates_marks_once_witness :
    ∃ st', invalidate cycleGraph 0 (fun _ => true) = some st' ∧
      (∀ j, cycleGraph.rigid j = false → Reach cycleGraph 0 j →
        st'.marks j = 1 ∧ st'.valid j = false) ∧
      (∀ j, ¬(cycleGraph.rigid j = false ∧ Reach cycleGraph 0 j) →
        st'.marks j = 0 ∧ st'.valid j = true) :=
  c1_invalidate_terminates_marks_once cycleGraph 0 (fun _ => true)

/-! ## Link node construction and mutation (linkmap.py 156-186, key.py 59-68) -/

/-- A link node's locally visible state: the `rigid` flag, the `valid` flag
and the cached `_value` (`none` is Python's initial `None`). -/
structure PyLinkNode (V : Type) where
  rigid : Bool
  valid : Bool
  val : Option V

/-- `LinkNode.__init__(*value, refresh, rigid=...)`: with no positional
value the cache starts empty and invalid; with one it starts filled and
valid. -/
def linkNodeNew {V : Type} (value : Option V) (rigid : Bool) : PyLinkNode V :=
  { rigid := rigid, valid := value.isSome, val := value }

/-- The `LinkNode.value` setter restricted to a node with no dependents yet
(the situation inside `Key.__init__`): if the new value differs from the
cached one, store it and mark valid; otherwise do nothing. -/
def linkNodeSetLocal {V : Type} [DecidableEq V] (nd : PyLinkNode V) (v : V) :
    PyLinkNode V :=
  if nd.val ≠ some v then { nd with val := some v, valid := true } else nd

/-- `Key.__init__(data, ...)`: the key's cache node is created by
`LinkNode(refresh=self._refresh_basic, rigid=data is not None)`, and when
`data` is given, `self.set(data)` stores it through the value setter (the
fresh node has no dependents, so no invalidation fans out). -/
def keyInitNode {V : Type} [DecidableEq V] (data : Option V) : PyLinkNode V :=
  let nd := linkNodeNew none data.isSome
  match data with
  | some d => linkNodeSetLocal nd d
  | none => nd

/-- C10: a Key constructed with an explicit initial value gets a rigid,
valid cache node holding that value, and `invalidate` on any rigid node —
called directly or reached through propagation, with any memo and any
remaining fuel — returns the state unchanged: the node stays valid, keeps
its value (values are not even part of the invalidation state), and nothing
propagates to its own dependents. -/
theorem c10_explicit_data_key_is_rigid {V : Type} [DecidableEq V] (d : V)
    {n : Nat} (g : InvGraph n) (i : Fin n) (hr : g.rigid i = true)
    (fuel : Nat) (st : InvSt n) :
    (keyInitNode (some d)).rigid = true ∧
    (keyInitNode (some d)).valid = true ∧
    (keyInitNode (some d)).val = some d ∧
    invRun g (fuel + 1) i st = some st := by
  refine ⟨rfl, ?_, ?_, ?_⟩
  · simp [keyInitNode, linkNodeNew, linkNodeSetLocal]
  · simp [keyInitNode, linkNodeNew, linkNodeSetLocal]
  · rw [invRun, hr]
    simp

/-- Witness for C10: in `cycleGraph`, node 2 is rigid; invalidating it
leaves an arbitrary concrete state untouched. -/
theorem c10_explicit_data_key_is_rigid_witness :
    (keyInitNode (some (7 : Int))).rigid = true ∧
    (keyInitNode (some (7 : Int))).valid = true ∧
    (keyInitNode (some (7 : Int))).val = some 7 ∧
    invRun cycleGraph (3 + 1) 2 ⟨fun _ => true, ∅, fun _ => 0⟩ =
      some ⟨fun _ => true, ∅, fun _ => 0⟩ :=
  c10_explicit_data_key_is_rigid 7 cycleGraph 2 (by decide) 3 _

/-! ## The `LinkNode.value` setter with fan-out (linkmap.py 176-186) -/

/-- The externally visible state of all nodes: validity flags and cached
values (`marks`/`memo` are per-call). -/
structure NodeVals (n : Nat) (V : Type) where
  valid : Fin n → Bool
  values : Fin n → Option V

/-- The `LinkNode.value` setter on node `i`: if the new value differs from
the cached one (`if self._value is not value`, Python object identity,
modelled as value inequality), store it, mark the node valid, and invalidate
every direct dependent in `links_in` then `references_in`, all sharing the
per-call memo `{id(self)}`; otherwise do nothing.  Fuel `n` bounds the
propagation depth and is proved sufficient. -/
def lnSetValue {n : Nat} {V : Type} [DecidableEq V] (g : InvGraph n)
    (i : Fin n) (v : V) (s : NodeVals n V) : Option (NodeVals n V) :=
  if s.values i ≠ some v then
    match stepList (invRun g n) (g.succs i)
        ⟨Function.update s.valid i true, {i}, fun _ => 0⟩ with
    | none => none
    | some st' => some ⟨st'.valid, Function.update s.values i (some v)⟩
  else some s

/-- C8: setting a link node to a value that differs from the cached one
succeeds, stores the value, marks the node valid, makes every non-rigid
direct dependent (link or reference, other than the node itself, which the
memo protects) invalid, and changes no other node's cached value; setting
the unchanged cached value is a no-op returning the state as is — cached
value, validity flag and every dependent's validity untouched. -/
theorem c8_set_value_fanout_or_noop {n : Nat} {V : Type} [DecidableEq V]
    (g : InvGraph n) (i : Fin n) (v : V) (s : NodeVals n V)
    (hne : s.values i ≠ some v) :
    (∃ s', lnSetValue g i v s = some s' ∧
      s'.values i = some v ∧
      s'.valid i = true ∧
      (∀ j, j ∈ g.succs i → j ≠ i → g.rigid j = false → s'.valid j = false) ∧
      (∀ j, j ≠ i → s'.values j = s.values j)) ∧
    (∀ w, s.values i = some w → lnSetValue g i w s = some s) := by
  constructor
  · have hn1 : 1 ≤ n := i.pos
    have hsome : ∃ st', stepList (invRun g n) (g.succs i)
        ⟨Function.update s.valid i true, {i}, fun _ => 0⟩ = some st' := by
      refine stepList_some (fun x st hc => invRun_some g n x st hc) _ _ ?_
      simp only [Finset.card_singleton]
      omega
    obtain ⟨st', hrun⟩ := hsome
    have hpost := stepList_post (fun x st st' hx => invRun_post g n x st st' hx) hrun
    have hclosed := stepList_closed (fun x st st' hx => invRun_closed g n x st st' hx) hrun
    refine ⟨⟨st'.valid, Function.update s.values i (some v)⟩, ?_, ?_, ?_, ?_, ?_⟩
    · rw [lnSetValue, if_pos hne, hrun]
    · simp
    · have hiMemo : i ∈ (⟨Function.update s.valid i true, {i}, fun _ => 0⟩ : InvSt n).memo := by
        simp
      have := (hpost.2 i).2 (fun hc => hc.2 hiMemo)
      show st'.valid i = true
      rw [this.1]
      simp
    · intro j hj hji hrj
      have hjmem : j ∈ st'.memo := hclosed.2 j hj hrj
      have hjnew : j ∉ ({i} : Finset (Fin n)) := by simpa using hji
      exact ((hpost.2 j).1 ⟨hjmem, by simpa using hji⟩).1
    · intro j hji
      simp [Function.update_noteq hji]
  · intro w hw
    rw [lnSetValue, hw]
    simp

/-- Witness for C8 on `cycleGraph`: setting node 1 from an empty cache to 5
stores 5, marks node 1 valid and invalidates its sole non-rigid dependent
node 0; re-setting 5 afterwards is then covered by the no-op conjunct. -/
theorem c8_set_value_fanout_or_noop_witness :
    (∃ s', lnSetValue cycleGraph 1 (5 : Int) ⟨fun _ => true, fun _ => none⟩ = some s' ∧
      s'.values 1 = some 5 ∧
      s'.valid 1 = true ∧
      (∀ j, j ∈ cycleGraph.succs 1 → j ≠ 1 → cycleGraph.rigid j = false →
        s'.valid j = false) ∧
      (∀ j, j ≠ 1 → s'.values j = (fun _ => (none : Option Int)) j)) ∧
    (∀ w, (fun _ => (none : Option Int)) (1 : Fin 3) = some w →
      lnSetValue cycleGraph 1 w ⟨fun _ => true, fun _ => none⟩ =
        some ⟨fun _ => true, fun _ => none⟩) :=
  c8_set_value_fanout_or_noop cycleGraph 1 5 ⟨fun _ => true, fun _ => none⟩ (by simp)

/-! ## The `LinkNode.value` getter (linkmap.py 169-174) -/

/-- The cache cell of one `LinkNode`: cached `_value` and `valid` flag. -/
structure LNCache (α : Type) where
  val : Option α
  valid : Bool

/-- The `LinkNode.value` getter: if the node is not valid, call the refresh
function (modelled by the value `refresh` it would return), cache the
result and mark the node valid; then return the cached value.  The third
component counts how many times the refresh function was invoked during the
read. -/
def lnGet {α : Type} (refresh : α) (st : LNCache α) : Option α × LNCache α × Nat :=
  if st.valid then (st.val, st, 0)
  else (some refresh, ⟨some refresh, true⟩, 1)

/-- Two linked cache nodes: `b` is registered in `a.links_in`, i.e. `b`
must be invalidated when `a` changes (the situation of a calculated key
`b` whose refresh function reads key `a`). -/
structure LinkedPair where
  a : LNCache Int
  b : LNCache Int

/-- The `LinkNode.value` setter on node `a` of the pair: when the value
differs from the cached one, store it, mark `a` valid and invalidate the
dependent `b` (non-rigid, so its `valid` flag is cleared; `b` has no further
dependents). -/
def pairSetA (v : Int) (s : LinkedPair) : LinkedPair :=
  if s.a.val ≠ some v then
    { a := ⟨some v, true⟩, b := { s.b with valid := false } }
  else s

/-- Reading `b.value` in the pair: if `b` is invalid its refresh function
runs, and that refresh reads `a.value` (refreshing `a` from `ra` if `a` is
itself invalid) and applies the calculation `f` to it; the result is cached
on `b`.  The last component counts `b`-refresh invocations. -/
def pairGetB (f : Option Int → Int) (ra : Int) (s : LinkedPair) :
    Option Int × LinkedPair × Nat :=
  if s.b.valid then (s.b.val, s, 0)
  else
    let r := f (lnGet ra s.a).1
    (some r, { a := (lnGet ra s.a).2.1, b := ⟨some r, true⟩ }, 1)

/-- C2: reading a valid node returns the cached value without invoking
refresh and leaves the state unchanged; reading an invalid node invokes
refresh exactly once, caches the result, marks the node valid and returns
it; a second read without intervening mutation returns the identical cached
object with zero further refresh calls; and after mutating a dependency
(`pairSetA` with a changed value) a re-read of the dependent reflects the
new value. -/
theorem c2_get_caches_and_tracks_dependencies {α : Type} (r : α)
    (st : LNCache α) (f : Option Int → Int) (ra v : Int) (s : LinkedPair)
    (hchanged : s.a.val ≠ some v) :
    (st.valid = true → lnGet r st = (st.val, st, 0)) ∧
    (st.valid = false → lnGet r st = (some r, ⟨some r, true⟩, 1)) ∧
    lnGet r (lnGet r st).2.1 = ((lnGet r st).1, (lnGet r st).2.1, 0) ∧
    (pairGetB f ra (pairSetA v s)).1 = some (f (some v)) := by
  refine ⟨fun h => by simp [lnGet, h], fun h => by simp [lnGet, h], ?_, ?_⟩
  · by_cases h : st.valid
    · simp [lnGet, h]
    · simp [lnGet, h]
  · rw [pairSetA, if_pos hchanged]
    simp [pairGetB, lnGet]

/-- Witness for C2: an initially valid node caching 3, and a pair whose
dependency is mutated from an empty cache to 4 with the calculation
doubling it. -/
theorem c2_get_caches_and_tracks_dependencies_witness :
    ((⟨some 3, true⟩ : LNCache Int).valid = true →
      lnGet 9 (⟨some 3, true⟩ : LNCache Int) = (some 3, ⟨some 3, true⟩, 0)) ∧
    ((⟨some 3, true⟩ : LNCache Int).valid = false →
      lnGet 9 (⟨some 3, true⟩ : LNCache Int) = (some 9, ⟨some 9, true⟩, 1)) ∧
    lnGet 9 (lnGet 9 (⟨some 3, true⟩ : LNCache Int)).2.1 =
      ((lnGet 9 (⟨some 3, true⟩ : LNCache Int)).1,
        (lnGet 9 (⟨some 3, true⟩ : LNCache Int)).2.1, 0) ∧
    (pairGetB (fun x => 2 * x.getD 0) 0
      (pairSetA 4 ⟨⟨none, false⟩, ⟨none, false⟩⟩)).1 = some (2 * 4) :=
  c2_get_caches_and_tracks_dependencies 9 ⟨some 3, true⟩
    (fun x => 2 * x.getD 0) 0 4 ⟨⟨none, false⟩, ⟨none, false⟩⟩ (by simp)

/-! ## The link map (linkmap.py 20-95)

Nodes are identified by `Nat` ids; `refs : Nat → List Nat` is the global
`references_in` state of all nodes (a weak set, modelled as a list).  A
`LinkMapT` is one map level: its registered name→node contents, its staging
table of name→pending-dependents, and an optional parent map.

Modelled from the spec: `LinkMap.add_reference` tests `target in
self.nodes`; no `nodes` attribute appears anywhere in the source (the class
mixes superseded iterations).  Per the spec — "if `target_name` is already
registered, attach `dependent` directly" — `nodes` is taken to be the map's
registered name→node contents, i.e. membership coincides with `target in
self`. -/

inductive LinkMapT where
  | mk : List (String × Nat) → List (String × List Nat) → Option LinkMapT → LinkMapT

def LinkMapT.entries : LinkMapT → List (String × Nat)
  | .mk e _ _ => e

def LinkMapT.staged : LinkMapT → List (String × List Nat)
  | .mk _ s _ => s

def LinkMapT.parent : LinkMapT → Option LinkMapT
  | .mk _ _ p => p

/-- Python `dict` put: replace the entry for `k` when present, else append
a new entry at the end. -/
def aput {α : Type} (l : List (String × α)) (k : String) (v : α) :
    List (String × α) :=
  match l with
  | [] => [(k, v)]
  | (k', v') :: rest => if k' == k then (k, v) :: rest else (k', v') :: aput rest k v

/-- Python `del d[k]`. -/
def aremove {α : Type} (l : List (String × α)) (k : String) : List (String × α) :=
  l.filter (fun p => p.1 != k)

/-- `self.staged[target].add(origin)` on a `defaultdict(WeakSet)`: a missing
key starts as the empty set. -/
def stagedAdd (st : List (String × List Nat)) (k : String) (origin : Nat) :
    List (String × List Nat) :=
  match st.lookup k with
  | some xs => aput st k (xs ++ [origin])
  | none => aput st k [origin]

/-- `self.staged[k].update(xs)` for re-staging a whole dependent set. -/
def stagedAddAll (st : List (String × List Nat)) (k : String) (xs : List Nat) :
    List (String × List Nat) :=
  match st.lookup k with
  | some ys => aput st k (ys ++ xs)
  | none => aput st k xs

/-- `name.rsplit("/", 1)[0]`: everything before the last `/` (the whole
string when there is none). -/
def stripAspect (name : String) : String :=
  let ps := name.splitOn "/"
  if ps.length ≤ 1 then name else String.intercalate "/" ps.dropLast

/-- `LinkMap.__delitem__(name)` on the map's own tables: every registered
key starting with the path prefix of `name` is removed and its node's
incoming references are re-staged under that key. -/
def delItemAux (name : String) (entries : List (String × Nat))
    (staged : List (String × List Nat)) (refs : Nat → List Nat) :
    List (String × Nat) × List (String × List Nat) :=
  let base := stripAspect name
  let deletables := entries.filter (fun p => base.isPrefixOf p.1)
  let staged' := deletables.foldl (fun st p => stagedAddAll st p.1 (refs p.2)) staged
  (entries.filter (fun p => !(base.isPrefixOf p.1)), staged')

/-- `LinkMap.add_reference(origin, target)`: when `target` is registered,
add `origin` to the target node's `references_in`; otherwise stage `origin`
under `target` and propagate the same request to the parent map when there
is one. -/
def addRef (origin : Nat) (target : String) :
    LinkMapT → (Nat → List Nat) → LinkMapT × (Nat → List Nat)
  | .mk entries staged none, refs =>
    match entries.lookup target with
    | some nid => (.mk entries staged none, Function.update refs nid (refs nid ++ [origin]))
    | none => (.mk entries (stagedAdd staged target origin) none, refs)
  | .mk entries staged (some p), refs =>
    match entries.lookup target with
    | some nid => (.mk entries staged (some p), Function.update refs nid (refs nid ++ [origin]))
    | none =>
      let pr := addRef origin target p refs
      (.mk entries (stagedAdd staged target origin) (some pr.1), pr.2)

/-- `LinkMap.__setitem__(name, node)`: delete any previous binding of
`name` (re-staging its dependents), register the node, then migrate every
dependent staged under `name` onto the node's `references_in` and clear the
staging entry. -/
def setItem (name : String) (nid : Nat) (m : LinkMapT) (refs : Nat → List Nat) :
    LinkMapT × (Nat → List Nat) :=
  match m with
  | .mk entries staged parent =>
    let es :=
      if (entries.lookup name).isSome then delItemAux name entries staged refs
      else (entries, staged)
    let entries' := aput es.1 name nid
    match es.2.lookup name with
    | some deps =>
      (.mk entries' (aremove es.2 name) parent, Function.update refs nid (refs nid ++ deps))
    | none => (.mk entries' es.2 parent, refs)

theorem aput_lookup_self {α : Type} (l : List (String × α)) (k : String) (v : α) :
    (aput l k v).lookup k = some v := by
  induction l with
  | nil => simp [aput, List.lookup]
  | cons p rest ih =>
      obtain ⟨k', v'⟩ := p
      by_cases h : k' = k
      · simp [aput, h, List.lookup]
      · have hbeq : (k' == k) = false := beq_eq_false_iff_ne.mpr h
        have hbeq2 : (k == k') = false := beq_eq_false_iff_ne.mpr (Ne.symm h)
        simp [aput, hbeq, List.lookup, hbeq2, ih]

theorem aremove_lookup_self {α : Type} (l : List (String × α)) (k : String) :
    (aremove l k).lookup k = none := by
  induction l with
  | nil => simp [aremove, List.lookup]
  | cons p rest ih =>
      obtain ⟨k', v'⟩ := p
      by_cases h : k' = k
      · subst h
        simpa [aremove, List.filter_cons] using ih
      · have hbne : (k' != k) = true := by simp [h]
        have hbeq2 : (k == k') = false := beq_eq_false_iff_ne.mpr (Ne.symm h)
        simpa [aremove, List.filter_cons, hbne, List.lookup, hbeq2] using ih

/-- C7: `add_reference(dependent, target_name)` attaches the dependent to
the registered node when `target_name` is bound in the map, leaving the map
itself untouched; when unbound it records the dependent in the staging
table under `target_name` and propagates the same request to the parent
map; and registering a node under a previously ungrounded name afterwards
(`__setitem__`) migrates all dependents staged under that name onto the
node's incoming references and clears the staging entry. -/
theorem c7_add_reference_staging_and_migration (origin nid tnid : Nat)
    (target name : String) (entries : List (String × Nat))
    (staged : List (String × List Nat)) (parent : Option LinkMapT)
    (p : LinkMapT) (refs : Nat → List Nat) (deps : List Nat)
    (hname : entries.lookup name = none)
    (hstaged : staged.lookup name = some deps) :
    (entries.lookup target = some tnid →
      addRef origin target (.mk entries staged parent) refs =
        (.mk entries staged parent, Function.update refs tnid (refs tnid ++ [origin]))) ∧
    (entries.lookup target = none →
      (addRef origin target (.mk entries staged (some p)) refs).1 =
        .mk entries (stagedAdd staged target origin)
          (some (addRef origin target p refs).1) ∧
      (addRef origin target (.mk entries staged (some p)) refs).2 =
        (addRef origin target p refs).2 ∧
      (stagedAdd staged target origin).lookup target =
        some ((staged.lookup target).getD [] ++ [origin])) ∧
    ((setItem name nid (.mk entries staged parent) refs).1.entries.lookup name =
        some nid ∧
      (setItem name nid (.mk entries staged parent) refs).1.staged.lookup name =
        none ∧
      (setItem name nid (.mk entries staged parent) refs).2 =
        Function.update refs nid (refs nid ++ deps)) := by
  refine ⟨?_, ?_, ?_⟩
  · intro h
    cases parent <;> simp [addRef, h]
  · intro h
    refine ⟨by simp [addRef, h], by simp [addRef, h], ?_⟩
    rw [stagedAdd]
    cases hst : staged.lookup target with
    | some xs => simp [aput_lookup_self]
    | none => simp [aput_lookup_self]
  · have hno : (entries.lookup name).isSome = false := by simp [hname]
    refine ⟨?_, ?_, ?_⟩ <;>
      simp [setItem, hno, hstaged, aput_lookup_self, aremove_lookup_self,
        LinkMapT.entries, LinkMapT.staged]

/-- Witness for C7: a map registering `"A/basic"` with node 1, a staging
table holding dependent 9 under `"B/basic"`, and a parentless propagation
scenario. -/
theorem c7_add_reference_staging_and_migration_witness :
    (([("A/basic", 1)] : List (String × Nat)).lookup "A/basic" = some 1 →
      addRef 9 "A/basic" (.mk [("A/basic", 1)] [("B/basic", [9])] none) (fun _ => []) =
        (.mk [("A/basic", 1)] [("B/basic", [9])] none,
          Function.update (fun _ => []) 1 ((fun _ => ([] : List Nat)) 1 ++ [9]))) ∧
    (([("A/basic", 1)] : List (String × Nat)).lookup "A/basic" = none →
      (addRef 9 "A/basic" (.mk [("A/basic", 1)] [("B/basic", [9])]
          (some (.mk [] [] none))) (fun _ => [])).1 =
        .mk [("A/basic", 1)] (stagedAdd [("B/basic", [9])] "A/basic" 9)
          (some (addRef 9 "A/basic" (.mk [] [] none) (fun _ => [])).1) ∧
      (addRef 9 "A/basic" (.mk [("A/basic", 1)] [("B/basic", [9])]
          (some (.mk [] [] none))) (fun _ => [])).2 =
        (addRef 9 "A/basic" (.mk [] [] none) (fun _ => [])).2 ∧
      (stagedAdd [("B/basic", [9])] "A/basic" 9).lookup "A/basic" =
        some ((([("B/basic", [9])] : List (String × List Nat)).lookup "A/basic").getD [] ++ [9])) ∧
    ((setItem "B/basic" 2 (.mk [("A/basic", 1)] [("B/basic", [9])] none)
        (fun _ => [])).1.entries.lookup "B/basic" = some 2 ∧
      (setItem "B/basic" 2 (.mk [("A/basic", 1)] [("B/basic", [9])] none)
        (fun _ => [])).1.staged.lookup "B/basic" = none ∧
      (setItem "B/basic" 2 (.mk [("A/basic", 1)] [("B/basic", [9])] none)
        (fun _ => [])).2 =
        Function.update (fun _ => []) 2 ((fun _ => ([] : List Nat)) 2 ++ [9])) :=
  c7_add_reference_staging_and_migration 9 2 1 "A/basic" "B/basic"
    [("A/basic", 1)] [("B/basic", [9])] none (.mk [] [] none) (fun _ => [])
    [9] (by decide) (by decide)

/-! ## The windowed byte buffer (util.py 16-234)

`RawBytesIO` is the backing stream (a byte array with a cursor whose length
never changes under `read`/`write`); `BytesBuffer` is a window `[base, end)`
over it.  Cursors and offsets are byte counts (`Nat`): every operation in
the claims keeps them non-negative, as the Python API does. -/

/-- The backing stream: `RawBytesIO`'s byte array and cursor. -/
structure RawSt where
  blob : List Nat
  cursor : Nat

/-- `RawBytesIO.read(size)`: return `self.blob[start:start+size]` (the
slice clips to the array) and set the cursor to `start + size`. -/
def rawRead (size : Nat) (r : RawSt) : List Nat × RawSt :=
  ((r.blob.drop r.cursor).take size, { r with cursor := r.cursor + size })

/-- `RawBytesIO.write(b)`: write `min(len(b), length - start)` bytes at the
cursor, advance the cursor by that amount, and return it. -/
def rawWrite (b : List Nat) (r : RawSt) : Nat × RawSt :=
  let toWrite := min b.length (r.blob.length - r.cursor)
  (toWrite,
    { blob := r.blob.take r.cursor ++ b.take toWrite ++
        r.blob.drop (r.cursor + toWrite),
      cursor := r.cursor + toWrite })

/-- `RawBytesIO.seek(offset)` (SEEK_SET): clamp to the stream length. -/
def rawSeek (offset : Nat) (r : RawSt) : RawSt :=
  { r with cursor := min offset r.blob.length }

/-- A `BytesBuffer` window: `_base`, `_end`, `_cursor` (the backing stream
travels separately so several windows can share it). -/
structure BBuf where
  base : Nat
  endPos : Nat
  cursor : Nat

/-- `BytesBuffer(raw, base=b, size=s)` over an already-open backing stream:
`_end = base + size`, cursor at 0. -/
def mkWindow (base size : Nat) : BBuf :=
  { base := base, endPos := base + size, cursor := 0 }

/-- `BytesBuffer.read(size)` with an explicit size: seek the backing stream
to `base + cursor`, clip `size` so `start + size` does not pass `_end`,
read from the raw stream, and recompute the window cursor from the raw
cursor. -/
def bbRead (size : Nat) (w : BBuf) (r : RawSt) : List Nat × BBuf × RawSt :=
  let start := w.base + w.cursor
  let r1 := rawSeek start r
  let size := if w.endPos < start + size then w.endPos - start else size
  let (ret, r2) := rawRead size r1
  (ret, { w with cursor := r2.cursor - w.base }, r2)

/-- `BytesBuffer.readall()`: read `_end - start` bytes from `base + cursor`
and move the window cursor to the end of the window. -/
def bbReadall (w : BBuf) (r : RawSt) : List Nat × BBuf × RawSt :=
  let start := w.base + w.cursor
  let r1 := rawSeek start r
  let (ret, r2) := rawRead (w.endPos - start) r1
  (ret, { w with cursor := w.endPos }, r2)

/-- `BytesBuffer.write(b)`: seek the backing stream to `base + cursor`,
truncate `b` to `b[:end - start]` when it would pass `_end`, write it to
the raw stream, and advance the window cursor by the number of bytes the
raw stream accepted. -/
def bbWrite (b : List Nat) (w : BBuf) (r : RawSt) : Nat × BBuf × RawSt :=
  let start := w.base + w.cursor
  let r1 := rawSeek start r
  let b := if w.endPos < start + b.length then b.take (w.endPos - start) else b
  let (ret, r2) := rawWrite b r1
  (ret, { w with cursor := w.cursor + ret }, r2)

/-- Elements outside a spliced-in segment are unchanged: splicing `nb`
(of length `t`) into `blob` at offset `s` leaves every index below `s` and
at or above `s + t` as it was. -/
theorem splice_getD (blob nb : List Nat) (s t p : Nat) (hs : s ≤ blob.length)
    (ht : nb.length = t) (hp : p < s ∨ s + t ≤ p) :
    (blob.take s ++ nb ++ blob.drop (s + t)).getD p 0 = blob.getD p 0 := by
  subst ht
  have hlen : (blob.take s).length = s := by simp [List.length_take]; omega
  simp only [List.getD_eq_getElem?_getD]
  rcases hp with hp | hp
  · rw [List.append_assoc, List.getElem?_append_left (by omega)]
    rw [List.getElem?_take]
    simp [hp]
  · have hlen2 : (blob.take s ++ nb).length = s + nb.length := by simp [hlen]
    rw [List.getElem?_append_right (by rw [hlen2]; omega)]
    rw [hlen2, List.getElem?_drop]
    congr 2
    omega

/-- C9: over a backing stream that covers the window (`end ≤ length`) and a
window cursor inside the window, every read returns exactly the backing
bytes from `base + cursor` clipped at the window end — in particular
`readall` exposes exactly `[base, end)` when the cursor is 0, and a read
reaching past the end returns only the in-window bytes — and every write is
truncated to the window: the count of accepted bytes is clipped so the
write never passes the window end, the backing stream keeps its length, and
every backing byte below `base` or at/after `end` is unchanged. -/
theorem c9_window_clips_reads_and_writes (size : Nat) (w : BBuf) (r : RawSt)
    (b : List Nat) (hcov : w.endPos ≤ r.blob.length)
    (hcur : w.base + w.cursor ≤ w.endPos) :
    ((bbRead size w r).1 =
      (r.blob.drop (w.base + w.cursor)).take
        (min size (w.endPos - (w.base + w.cursor)))) ∧
    ((bbReadall w r).1 =
      (r.blob.drop (w.base + w.cursor)).take (w.endPos - (w.base + w.cursor))) ∧
    ((bbWrite b w r).1 = min b.length (w.endPos - (w.base + w.cursor))) ∧
    (w.base + w.cursor + (bbWrite b w r).1 ≤ w.endPos) ∧
    ((bbWrite b w r).2.2.blob.length = r.blob.length) ∧
    (∀ p, p < w.base ∨ w.endPos ≤ p →
      (bbWrite b w r).2.2.blob.getD p 0 = r.blob.getD p 0) := by
  have hstart : w.base + w.cursor ≤ r.blob.length := le_trans hcur hcov
  refine ⟨?_, ?_, ?_, ?_, ?_, ?_⟩
  · simp only [bbRead, rawSeek, rawRead, Nat.min_eq_left hstart]
    split_ifs with h
    · congr 1; omega
    · congr 1; omega
  · simp only [bbReadall, rawSeek, rawRead, Nat.min_eq_left hstart]
  · simp only [bbWrite, rawSeek, rawWrite, Nat.min_eq_left hstart]
    split_ifs with h
    · simp only [List.length_take]
      omega
    · omega
  · simp only [bbWrite, rawSeek, rawWrite, Nat.min_eq_left hstart]
    split_ifs with h
    · simp only [List.length_take]
      omega
    · omega
  · simp only [bbWrite, rawSeek, rawWrite, Nat.min_eq_left hstart]
    split_ifs with h <;>
      simp only [List.length_append, List.length_take, List.length_drop] <;> omega
  · intro p hp
    simp only [bbWrite, rawSeek, rawWrite, Nat.min_eq_left hstart]
    split_ifs with h
    · exact splice_getD _ _ _ _ _ hstart
        (by simp only [List.length_take]; omega)
        (by simp only [List.length_take]; omega)
    · exact splice_getD _ _ _ _ _ hstart
        (by simp only [List.length_take]; omega)
        (by omega)

/-- Witness for C9: the spec scenario — a window `base=1, size=4` over an
8-byte backing stream, an over-long read request of 10 bytes and an
over-long 6-byte write, both clipped to the window `[1, 5)`. -/
theorem c9_window_clips_reads_and_writes_witness :
    ((bbRead 10 (mkWindow 1 4) ⟨[0, 1, 2, 3, 4, 5, 6, 7], 0⟩).1 =
      (([0, 1, 2, 3, 4, 5, 6, 7] : List Nat).drop (1 + 0)).take
        (min 10 ((mkWindow 1 4).endPos - (1 + 0)))) ∧
    ((bbReadall (mkWindow 1 4) ⟨[0, 1, 2, 3, 4, 5, 6, 7], 0⟩).1 =
      (([0, 1, 2, 3, 4, 5, 6, 7] : List Nat).drop (1 + 0)).take
        ((mkWindow 1 4).endPos - (1 + 0))) ∧
    ((bbWrite [9, 9, 9, 9, 9, 9] (mkWindow 1 4) ⟨[0, 1, 2, 3, 4, 5, 6, 7], 0⟩).1 =
      min 6 ((mkWindow 1 4).endPos - (1 + 0))) ∧
    (1 + 0 + (bbWrite [9, 9, 9, 9, 9, 9] (mkWindow 1 4)
        ⟨[0, 1, 2, 3, 4, 5, 6, 7], 0⟩).1 ≤ (mkWindow 1 4).endPos) ∧
    ((bbWrite [9, 9, 9, 9, 9, 9] (mkWindow 1 4)
        ⟨[0, 1, 2, 3, 4, 5, 6, 7], 0⟩).2.2.blob.length = 8) ∧
    (∀ p, p < 1 ∨ (mkWindow 1 4).endPos ≤ p →
      (bbWrite [9, 9, 9, 9, 9, 9] (mkWindow 1 4)
        ⟨[0, 1, 2, 3, 4, 5, 6, 7], 0⟩).2.2.blob.getD p 0 =
      ([0, 1, 2, 3, 4, 5, 6, 7] : List Nat).getD p 0) := by
  exact c9_window_clips_reads_and_writes 10 (mkWindow 1 4)
    ⟨[0, 1, 2, 3, 4, 5, 6, 7], 0⟩ [9, 9, 9, 9, 9, 9] (by decide) (by decide)


/-! ## Key resolution (key.py 83-121, dynamic.py 235-245)

Modelled from the spec: the decorator machinery that evaluates a
calculation rule (`make_container_resolver`,
`ReferenceHandler.from_method_using_args`) is absent from the source (the
module mixes superseded iterations), as is an `__eq__` on `ImperialType`.
A calculation rule is therefore modelled as the set of key names it reads
(`calc._refs`) plus its result as a function of the container's key
environment, and the `base != x` comparison in `Key.get_default` as value
inequality — per the spec, "every other applicable result must compare
equal to it".  Values are `Int` (the concrete value types are external
collaborators, excluded from the core). -/

/-- One registered calculation rule of a Key: the names it reads and the
value it computes from the container's keys. -/
structure CalcRule where
  refs : List String
  fn : (String → Int) → Int

/-- `Key.get_default()`: filter the registered calculations down to the
applicable ones (`self.container.has_keys(calc._refs)`); with none
applicable, fall back to the static class default (`none` encodes
`NO_DEFAULT`, i.e. the `(False, None)` return); otherwise the first
result is the candidate and any later applicable result different from it
raises `ImperialSanityError` (`.error ()`), else the candidate is returned
(`(True, base)`). -/
def getDefault (calcs : List CalcRule) (has : String → Bool)
    (env : String → Int) (default : Option Int) : Except Unit (Option Int) :=
  match calcs.filter (fun c => c.refs.all has) with
  | [] => .ok default
  | c :: rest =>
    if rest.any (fun x => decide (x.fn env ≠ c.fn env)) then .error ()
    else .ok (some (c.fn env))

/-- C3: whenever at least one calculation rule is applicable (so in
particular with two or more), all applicable rules are evaluated against
the first one's result: `get_default` raises the sanity error exactly when
some other applicable rule's result differs from the first's, and when all
applicable results agree it succeeds with the agreed value. -/
theorem c3_applicable_calculations_must_agree (calcs : List CalcRule)
    (has : String → Bool) (env : String → Int) (default : Option Int)
    (c : CalcRule) (rest : List CalcRule)
    (happ : calcs.filter (fun r => r.refs.all has) = c :: rest) :
    (getDefault calcs has env default = .error () ↔
      ∃ x ∈ rest, x.fn env ≠ c.fn env) ∧
    ((∀ x ∈ rest, x.fn env = c.fn env) →
      getDefault calcs has env default = .ok (some (c.fn env))) := by
  have hgd : getDefault calcs has env default =
      if (rest.any fun x => decide (x.fn env ≠ c.fn env)) = true then .error ()
      else .ok (some (c.fn env)) := by
    rw [getDefault, happ]
  constructor
  · rw [hgd]
    cases h : rest.any (fun x => decide (x.fn env ≠ c.fn env)) with
    | true =>
        have h' := h
        simp only [List.any_eq_true, decide_eq_true_eq] at h'
        exact ⟨fun _ => h', fun _ => rfl⟩
    | false =>
        have h' := h
        simp only [List.any_eq_false, decide_eq_true_eq, not_not] at h'
        constructor
        · intro hc
          simp at hc
        · rintro ⟨x, hx, hne⟩
          exact absurd (h' x hx) hne
  · intro hagree
    have h : ¬(rest.any (fun x => decide (x.fn env ≠ c.fn env)) = true) := by
      intro hc
      obtain ⟨x, hx, hpx⟩ := List.any_eq_true.mp hc
      exact of_decide_eq_true hpx (hagree x hx)
    rw [hgd, if_neg h]

/-- Witness for C3: the spec's adder — two applicable rules for `data`,
both reading `a` and `b` and agreeing on `a + b`; with `a = 1, b = 8`
resolution succeeds with 9 and the sanity error occurs exactly when some
later rule disagrees (here: never). -/
theorem c3_applicable_calculations_must_agree_witness :
    (getDefault
        [⟨["a", "b"], fun env => env "a" + env "b"⟩,
         ⟨["a", "b"], fun env => env "b" + env "a"⟩]
        (fun k => k == "a" || k == "b")
        (fun k => if k = "a" then 1 else 8) none = .error () ↔
      ∃ x ∈ [(⟨["a", "b"], fun env => env "b" + env "a"⟩ : CalcRule)],
        x.fn (fun k => if k = "a" then 1 else 8) ≠
          (⟨["a", "b"], fun env => env "a" + env "b"⟩ : CalcRule).fn
            (fun k => if k = "a" then 1 else 8)) ∧
    ((∀ x ∈ [(⟨["a", "b"], fun env => env "b" + env "a"⟩ : CalcRule)],
        x.fn (fun k => if k = "a" then 1 else 8) =
          (⟨["a", "b"], fun env => env "a" + env "b"⟩ : CalcRule).fn
            (fun k => if k = "a" then 1 else 8)) →
      getDefault
        [⟨["a", "b"], fun env => env "a" + env "b"⟩,
         ⟨["a", "b"], fun env => env "b" + env "a"⟩]
        (fun k => k == "a" || k == "b")
        (fun k => if k = "a" then 1 else 8) none =
        .ok (some ((⟨["a", "b"], fun env => env "a" + env "b"⟩ : CalcRule).fn
          (fun k => if k = "a" then 1 else 8)))) :=
  c3_applicable_calculations_must_agree _ _ _ none
    ⟨["a", "b"], fun env => env "a" + env "b"⟩
    [⟨["a", "b"], fun env => env "b" + env "a"⟩] rfl

/-- A key entry as `Dynamic.find_inherited` inspects it.  Modelled from the
spec: the `hidden` flag read by `find_inherited` is declared nowhere in the
source `Key`; per the spec an inherited key is usable when it is
"non-defaulted, non-hidden". -/
structure BKey where
  hidden : Bool
  defaulted : Bool
  value : Int

/-- `Dynamic.find_inherited(name)`: walk the benefactor chain; the first
benefactor whose key map contains the name with a non-hidden, non-defaulted
key supplies the inherited key; a hidden or defaulted hit falls through to
the next benefactor. -/
def findInherited : List (List (String × BKey)) → String → Option BKey
  | [], _ => none
  | b :: rest, name =>
    match b.lookup name with
    | some k => if !k.hidden && !k.defaulted then some k else findInherited rest name
    | none => findInherited rest name

/-- The error kinds a key read can surface. -/
inductive KeyErr where
  | keyNotFound
  | sanity
deriving DecidableEq

/-- Everything `Key._refresh_basic` (behind the `LinkNode.value` gate)
consults when a key is read: the node's cached value when valid, the
container's benefactor chain for `find_inherited(self.name)`, the
registered calculations with the container's key availability and values,
and the static default. -/
structure KeyModel where
  cached : Option Int
  chain : List (List (String × BKey))
  name : String
  calcs : List CalcRule
  has : String → Bool
  env : String → Int
  default : Option Int

/-- Reading a key's value: a valid cache is returned as is; otherwise
`_refresh_basic` tries inheritance, then `get_default`; a `(False, None)`
default verdict raises `ImperialKeyError`. -/
def keyRead (km : KeyModel) : Except KeyErr Int :=
  match km.cached with
  | some v => .ok v
  | none =>
    match findInherited km.chain km.name with
    | some k => .ok k.value
    | none =>
      match getDefault km.calcs km.has km.env km.default with
      | .error _ => .error .sanity
      | .ok none => .error .keyNotFound
      | .ok (some v) => .ok v

/-- The spec's failing example: a struct with rule `data = a + b` where
only `a = 1` has been set, so `b` is unavailable and no alternative
source for `data` exists. -/
def adderMissingB : KeyModel where
  cached := none
  chain := []
  name := "data"
  calcs := [⟨["a", "b"], fun env => env "a" + env "b"⟩]
  has := fun k => k == "a"
  env := fun _ => 1
  default := none

/-- C4: reading a key fails with the key-not-found error exactly when the
key has no cached/explicit value, no usable inherited key in the benefactor
chain, no calculation rule with all of its dependencies available, and no
static default; in particular the adder with rule `data = a + b` and only
`a` set fails with `ImperialKeyError` when `data` is read. -/
theorem c4_key_not_found_iff_no_source (km : KeyModel) :
    (keyRead km = .error .keyNotFound ↔
      (km.cached = none ∧ findInherited km.chain km.name = none ∧
        km.calcs.filter (fun r => r.refs.all km.has) = [] ∧
        km.default = none)) ∧
    keyRead adderMissingB = .error .keyNotFound := by
  refine ⟨?_, by rfl⟩
  rw [keyRead]
  cases hc : km.cached with
  | some v => simp [hc]
  | none =>
    simp only [hc, true_and]
    cases hi : findInherited km.chain km.name with
    | some k => simp
    | none =>
      simp only [true_and]
      cases happ : km.calcs.filter (fun r => r.refs.all km.has) with
      | cons c rest =>
          have hgd : getDefault km.calcs km.has km.env km.default =
              if (rest.any fun x => decide (x.fn km.env ≠ c.fn km.env)) = true
              then .error () else .ok (some (c.fn km.env)) := by
            rw [getDefault, happ]
          rw [hgd]
          cases hb : rest.any (fun x => decide (x.fn km.env ≠ c.fn km.env)) with
          | true => simp
          | false => simp
      | nil =>
          have hgd : getDefault km.calcs km.has km.env km.default =
              .ok km.default := by
            rw [getDefault, happ]
          rw [hgd]
          cases hd : km.default with
          | some d => simp
          | none => simp

/-! ## The numeric codec (number.py 63-95)

`Number.serialize` writes `value.to_bytes(nbytes, endian, signed=signed)`
after rejecting partial-byte widths, negative unsigned values and
overflowing values; `Number.unserialize` reads back with
`int.from_bytes(blob.read(), endian, signed=signed)`.  Modelled from the
spec: the `size`/`endian`/`sign` keys are resolved through key machinery
absent from the source (`Number.Sign`, `BytesBuffer.len_bits` are declared
nowhere), so the resolved byte width, endianness and signedness are
parameters here — the claim quantifies over structs "whose size/endian/sign
configuration is resolvable".  `to_bytes`/`from_bytes` themselves are
embedded: base-256 little-endian digits, reversed for big endian, two's
complement (`v mod 2^(8·n)`) for signed values. -/

/-- Little-endian base-256 digits of `u`, `n` bytes (`int.to_bytes`). -/
def toLE : Nat → Nat → List Nat
  | 0, _ => []
  | k + 1, v => v % 256 :: toLE k (v / 256)

/-- Little-endian base-256 value of a byte string (`int.from_bytes`). -/
def fromLE : List Nat → Nat
  | [] => 0
  | b :: bs => b + 256 * fromLE bs

theorem toLE_length (n u : Nat) : (toLE n u).length = n := by
  induction n generalizing u with
  | zero => rfl
  | succ k ih => simp [toLE, ih]

theorem fromLE_toLE_mod (n u : Nat) : fromLE (toLE n u) = u % 256 ^ n := by
  induction n generalizing u with
  | zero => simp [toLE, fromLE, Nat.mod_one]
  | succ k ih =>
      rw [toLE, fromLE, ih, pow_succ, mul_comm (256 ^ k) 256, Nat.mod_mul]

theorem fromLE_toLE (n u : Nat) (h : u < 256 ^ n) : fromLE (toLE n u) = u := by
  rw [fromLE_toLE_mod, Nat.mod_eq_of_lt h]

theorem pow256 (n : Nat) : (256 : Nat) ^ n = 2 ^ (8 * n) := by
  rw [pow_mul]
  norm_num

/-- The byte order resolved from the `endian` key. -/
inductive Endian where
  | little
  | big

/-- `value.to_bytes(nbytes, endian, signed=...)`: the base-256 digits of
`v mod 2^(8·nbytes)` (two's complement for negatives), least significant
first for little endian, reversed for big. -/
def numToBytes (nbytes : Nat) (e : Endian) (v : Int) : List Nat :=
  match e with
  | Endian.little => toLE nbytes (v % (2 ^ (8 * nbytes) : Int)).toNat
  | Endian.big => (toLE nbytes (v % (2 ^ (8 * nbytes) : Int)).toNat).reverse

/-- The errors `Number.serialize` can raise: `ImperialSanityError` for a
negative unsigned value or an overflowing value, and
`ImperialSerializationError` for a partial-byte width. -/
inductive NumErr where
  | sanity
  | serialization

/-- `Number.serialize`: reject widths that are not whole bytes, reject a
negative value for an unsigned field, reject values outside the signed or
unsigned range of the declared width (Python's `OverflowError` from
`to_bytes`, re-raised as a sanity error), else emit the bytes. -/
def numSerialize (nbytes : Nat) (e : Endian) (signed : Bool) (v : Int) :
    Except NumErr (List Nat) :=
  if (8 * nbytes) % 8 ≠ 0 then .error .serialization
  else if signed = false ∧ v < 0 then .error .sanity
  else if signed = true ∧
      ¬(-(2 ^ (8 * nbytes) : Int) ≤ 2 * v ∧ 2 * v < 2 ^ (8 * nbytes)) then
    .error .sanity
  else if signed = false ∧ ¬(v < 2 ^ (8 * nbytes)) then .error .sanity
  else .ok (numToBytes nbytes e v)

/-- The unsigned value the byte order yields (`int.from_bytes` before sign
interpretation). -/
def endianValue (e : Endian) (bs : List Nat) : Nat :=
  match e with
  | Endian.little => fromLE bs
  | Endian.big => fromLE bs.reverse

/-- Sign interpretation of `int.from_bytes`: a signed value with the top
bit set is shifted down by `2^(8·len)`. -/
def numDecode (signed : Bool) (len u : Nat) : Int :=
  if signed = true ∧ 2 ^ (8 * len) ≤ 2 * u then (u : Int) - 2 ^ (8 * len)
  else (u : Int)

/-- `Number.unserialize`: `int.from_bytes(blob.read(), endian,
signed=signed)` over the bytes the buffer window yields. -/
def numUnserialize (e : Endian) (signed : Bool) (bs : List Nat) : Int :=
  numDecode signed bs.length (endianValue e bs)

theorem emod_of_neg_range (v m : Int) (h1 : -m ≤ v) (h2 : v < 0) :
    v % m = v + m := by
  have e1 : (v + m * 1) % m = v % m := Int.add_mul_emod_self_left v m 1
  have e2 : (v + m) % m = v + m := Int.emod_eq_of_lt (by omega) (by omega)
  calc v % m = (v + m * 1) % m := e1.symm
    _ = (v + m) % m := by ring_nf
    _ = v + m := e2

theorem numDecode_toBytes (nbytes : Nat) (e : Endian) (v : Int)
    (hlo : -(2 ^ (8 * nbytes) : Int) ≤ 2 * v)
    (hhi : 2 * v < 2 ^ (8 * nbytes)) :
    numUnserialize e true (numToBytes nbytes e v) = v := by
  set M : Int := 2 ^ (8 * nbytes) with hM
  have hMpos : 0 < M := by positivity
  have hMN : ((2 ^ (8 * nbytes) : Nat) : Int) = M := by rw [hM]; push_cast; ring
  have hmodlt : v % M < M := Int.emod_lt_of_pos v hMpos
  have hmodge : 0 ≤ v % M := Int.emod_nonneg v (ne_of_gt hMpos)
  have huN : (v % M).toNat < 2 ^ (8 * nbytes) := by omega
  have hfrom : fromLE (toLE nbytes (v % M).toNat) = (v % M).toNat := by
    refine fromLE_toLE _ _ ?_
    rw [pow256]
    exact huN
  have hulen : (numToBytes nbytes e v).length = nbytes := by
    cases e <;> simp [numToBytes, toLE_length, ← hM]
  have huval : endianValue e (numToBytes nbytes e v) = (v % M).toNat := by
    cases e <;> simp [endianValue, numToBytes, List.reverse_reverse, ← hM, hfrom]
  rw [numUnserialize, hulen, huval, numDecode]
  rcases Int.lt_or_le v 0 with hv | hv
  · have hvm : v % M = v + M := emod_of_neg_range v M (by omega) hv
    rw [if_pos ⟨rfl, by omega⟩]
    omega
  · have hvm : v % M = v := Int.emod_eq_of_lt hv (by omega)
    rw [if_neg (by omega)]
    omega

/-- The composite pair-of-integers struct of the test suite: `serialize`
writes `left` then `right` as 2-byte little-endian fields; parsing reads
them back in order. -/
def pairSerializeLR (l r : Nat) : List Nat := toLE 2 l ++ toLE 2 r

/-- Parsing the pair struct: 2 bytes for `left` from the cursor, then 2
bytes for `right`. -/
def pairUnserializeLR (bs : List Nat) : Nat × Nat :=
  (fromLE (bs.take 2), fromLE ((bs.drop 2).take 2))

/-- C6: for every fixed-width integer struct whose width/endian/sign
configuration is resolvable, a value that serializes successfully
unserializes back to itself, and the composite pair-of-integers struct
round-trips both fields. -/
theorem c6_roundtrip_unserialize_serialize (nbytes : Nat) (e : Endian)
    (signed : Bool) (v : Int) (bs : List Nat) (l r : Nat)
    (h : numSerialize nbytes e signed v = .ok bs)
    (hl : l < 2 ^ 16) (hr : r < 2 ^ 16) :
    numUnserialize e signed bs = v ∧
    pairUnserializeLR (pairSerializeLR l r) = (l, r) := by
  constructor
  · rw [numSerialize, if_neg (by simp)] at h
    by_cases hs : signed = true
    · subst hs
      rw [if_neg (by simp)] at h
      by_cases hrange : -(2 ^ (8 * nbytes) : Int) ≤ 2 * v ∧ 2 * v < 2 ^ (8 * nbytes)
      · rw [if_neg (by simp [hrange]), if_neg (by simp)] at h
        obtain rfl := (Except.ok.injEq _ _).mp h.symm
        exact numDecode_toBytes nbytes e v hrange.1 hrange.2
      · rw [if_pos (by simpa using hrange)] at h
        exact absurd h (by simp)
    · have hs' : signed = false := by simpa using hs
      subst hs'
      by_cases hneg : v < 0
      · rw [if_pos ⟨rfl, hneg⟩] at h
        exact absurd h (by simp)
      · rw [if_neg (by simp [hneg]), if_neg (by simp)] at h
        by_cases hhi : v < 2 ^ (8 * nbytes)
        · rw [if_neg (by simp [hhi])] at h
          obtain rfl := (Except.ok.injEq _ _).mp h.symm
          set M : Int := 2 ^ (8 * nbytes) with hM
          have hMpos : 0 < M := by positivity
          have hMN : ((2 ^ (8 * nbytes) : Nat) : Int) = M := by
            rw [hM]; push_cast; ring
          have hvm : v % M = v := Int.emod_eq_of_lt (by omega) hhi
          have hfrom : fromLE (toLE nbytes (v % M).toNat) = (v % M).toNat := by
            refine fromLE_toLE _ _ ?_
            rw [pow256]
            omega
          have hulen : (numToBytes nbytes e v).length = nbytes := by
            cases e <;> simp [numToBytes, toLE_length, ← hM]
          have huval : endianValue e (numToBytes nbytes e v) = (v % M).toNat := by
            cases e <;>
              simp [endianValue, numToBytes, List.reverse_reverse, ← hM, hfrom]
          rw [numUnserialize, hulen, huval, numDecode, if_neg (by simp)]
          omega
        · rw [if_pos ⟨rfl, hhi⟩] at h
          exact absurd h (by simp)
  · have h2l : (toLE 2 l).length = 2 := toLE_length 2 l
    have h2r : (toLE 2 r).length = 2 := toLE_length 2 r
    have hbound : (256 : Nat) ^ 2 = 2 ^ 16 := by norm_num
    rw [pairUnserializeLR, pairSerializeLR, List.take_left' h2l,
      List.drop_left' h2l, List.take_of_length_le (le_of_eq h2r),
      fromLE_toLE 2 l (by omega), fromLE_toLE 2 r (by omega)]

/-- Witness for C6: the signed big-endian value −2 in two bytes
(`[0xFF, 0xFE]`) and the pair `(1, 2)`. -/
theorem c6_roundtrip_unserialize_serialize_witness :
    numUnserialize Endian.big true [255, 254] = -2 ∧
    pairUnserializeLR (pairSerializeLR 1 2) = (1, 2) :=
  c6_roundtrip_unserialize_serialize 2 Endian.big true (-2) [255, 254] 1 2
    rfl (by decide) (by decide)

/-! ## Resumable unserialization (serializable.py 44-82)

`unserialize_yield` keeps `last_blob`, `last_position` and the suspended
generator between calls.  The generator is modelled by its remaining
production sequence: each production is `(key_name, value, cursor_after)`,
the stream cursor after the generator has read that field's bytes — so
`blob.tell()` after consuming a production is its third component, and
resuming reuses the remaining productions from the preserved cursor.
Modelled from the spec: `self.keys.contains_quick` is declared nowhere in
the source; per the spec — "field names already present on the struct are
skipped" — it is membership in the struct's key map.  Productions with an
empty key name (`self.set(value)` on the struct's basic value) do not occur
in the keyed structs the claim quantifies over. -/

/-- The inter-call state of `unserialize_yield`: the struct's keys set so
far, the suspended generator's remaining productions, and `last_position`. -/
structure UYState where
  keys : List (String × Int)
  pending : List (String × Int × Nat)
  lastPos : Nat

/-- `self.keys.contains_quick(key)` (modelled from the spec as key-map
membership). -/
def kmContains (ks : List (String × Int)) (k : String) : Bool :=
  ks.any (fun p => p.1 == k)

/-- The `for key, value in last_generator` loop: set each produced field,
discard its name from the pending `until` set, and break as soon as `until`
is satisfied; the returned position is the stream cursor after the last
consumed production. -/
def uyLoop : List String → List (String × Int × Nat) → List (String × Int) → Nat →
    List (String × Int) × List (String × Int × Nat) × Nat
  | _, [], ks, pos => (ks, [], pos)
  | untilSet, (k, v, c) :: rest, ks, _ =>
      let ks' := aput ks k v
      let untilSet' := untilSet.erase k
      if untilSet'.isEmpty then (ks', rest, c)
      else uyLoop untilSet' rest ks' c

/-- One call of `unserialize_yield`'s handler: with fresh input bytes a new
generator is bound to the stream at cursor 0; with no input the preserved
generator and `last_position` are reused.  Names already present on the
struct are filtered out of `until`; when anything remains the generator
loop runs, and `last_position` is updated from the stream cursor. -/
def uyCall (st : UYState) (blob : Option (List Nat)) (untilArg : List String)
    (gen : List Nat → List (String × Int × Nat)) : UYState :=
  let pending := match blob with
    | none => st.pending
    | some bs => gen bs
  let pos := match blob with
    | none => st.lastPos
    | some _ => 0
  let u := untilArg.filter (fun k => !(kmContains st.keys k))
  if u.isEmpty then { keys := st.keys, pending := pending, lastPos := pos }
  else
    let r := uyLoop u pending st.keys pos
    { keys := r.1, pending := r.2.1, lastPos := r.2.2 }

/-- The test suite's `Pair` generator: read 2 little-endian bytes for
`left` (cursor 2), then 2 for `right` (cursor 4). -/
def pairGen (blob : List Nat) : List (String × Int × Nat) :=
  [("left", (fromLE (blob.take 2) : Int), 2),
   ("right", (fromLE ((blob.drop 2).take 2) : Int), 4)]

/-- C5: for a 2-field struct whose generator produces fields `n1` then
`n2`, calling `unserialize` with input bytes and `until = {n1}` sets the
first field, leaves the second absent, and preserves the generator and the
stream cursor after the first field; a subsequent call with no new input
(default `until`) resumes from there and completes the second field,
producing exactly the keys of a single eager parse; and a resumed call
explicitly requesting both names skips the already-present first field and
produces the same final keys. -/
theorem c5_resumable_unserialize (n1 n2 : String) (v1 v2 : Int) (c1 c2 : Nat)
    (blob : List Nat) (gen : List Nat → List (String × Int × Nat))
    (hgen : gen blob = [(n1, v1, c1), (n2, v2, c2)])
    (h1 : n1 ≠ "") (h2 : n2 ≠ "") (hne : n1 ≠ n2) :
    (uyCall ⟨[], [], 0⟩ (some blob) [n1] gen).keys = [(n1, v1)] ∧
    kmContains (uyCall ⟨[], [], 0⟩ (some blob) [n1] gen).keys n2 = false ∧
    (uyCall ⟨[], [], 0⟩ (some blob) [n1] gen).pending = [(n2, v2, c2)] ∧
    (uyCall ⟨[], [], 0⟩ (some blob) [n1] gen).lastPos = c1 ∧
    (uyCall (uyCall ⟨[], [], 0⟩ (some blob) [n1] gen) none [""] gen).keys =
      [(n1, v1), (n2, v2)] ∧
    (uyCall (uyCall ⟨[], [], 0⟩ (some blob) [n1] gen) none [""] gen).keys =
      (uyCall ⟨[], [], 0⟩ (some blob) [""] gen).keys ∧
    (uyCall (uyCall ⟨[], [], 0⟩ (some blob) [n1] gen) none [n1, n2] gen).keys =
      (uyCall ⟨[], [], 0⟩ (some blob) [""] gen).keys := by
  have b11 : (n1 == n1) = true := beq_self_eq_true n1
  have b12 : (n1 == n2) = false := beq_eq_false_iff_ne.mpr hne
  have b21 : (n2 == n1) = false := beq_eq_false_iff_ne.mpr (Ne.symm hne)
  have b1e : (n1 == "") = false := beq_eq_false_iff_ne.mpr h1
  have b2e : (n2 == "") = false := beq_eq_false_iff_ne.mpr h2
  have be1 : ("" == n1) = false := beq_eq_false_iff_ne.mpr (Ne.symm h1)
  have be2 : ("" == n2) = false := beq_eq_false_iff_ne.mpr (Ne.symm h2)
  have b22 : (n2 == n2) = true := beq_self_eq_true n2
  refine ⟨?_, ?_, ?_, ?_, ?_, ?_, ?_⟩ <;>
    simp [uyCall, uyLoop, aput, kmContains, hgen, List.filter, List.erase,
      b11, b12, b21, b1e, b2e, be1, be2, b22]

/-- Witness for C5: the test's `Pair` over the bytes `01 00 02 00`, parsed
first with `until = {"left"}`, then resumed. -/
theorem c5_resumable_unserialize_witness :
    (uyCall ⟨[], [], 0⟩ (some [1, 0, 2, 0]) ["left"] pairGen).keys =
      [("left", 1)] ∧
    kmContains (uyCall ⟨[], [], 0⟩ (some [1, 0, 2, 0]) ["left"] pairGen).keys
      "right" = false ∧
    (uyCall ⟨[], [], 0⟩ (some [1, 0, 2, 0]) ["left"] pairGen).pending =
      [("right", 2, 4)] ∧
    (uyCall ⟨[], [], 0⟩ (some [1, 0, 2, 0]) ["left"] pairGen).lastPos = 2 ∧
    (uyCall (uyCall ⟨[], [], 0⟩ (some [1, 0, 2, 0]) ["left"] pairGen)
        none [""] pairGen).keys = [("left", 1), ("right", 2)] ∧
    (uyCall (uyCall ⟨[], [], 0⟩ (some [1, 0, 2, 0]) ["left"] pairGen)
        none [""] pairGen).keys =
      (uyCall ⟨[], [], 0⟩ (some [1, 0, 2, 0]) [""] pairGen).keys ∧
    (uyCall (uyCall ⟨[], [], 0⟩ (some [1, 0, 2, 0]) ["left"] pairGen)
        none ["left", "right"] pairGen).keys =
      (uyCall ⟨[], [], 0⟩ (some [1, 0, 2, 0]) [""] pairGen).keys :=
  c5_resumable_unserialize "left" "right" 1 2 2 4 [1, 0, 2, 0] pairGen
    (by decide) (by decide) (by decide) (by decide)

end Imperial
